import Mathlib

/-!
Shallow embedding of the shazam-fingerprint-algorithm repository
(src/shazam/fingerprint.py, src/shazam/peaks.py, src/shazam/database.py,
src/shazam/matcher.py) together with theorems settling the frozen claims.

Modelling conventions:
* Python strings are modelled as lists of byte values (`List Nat`), so the
  hash token produced by `hashlib.sha1(...).hexdigest()[:20]` is a list of
  20 ASCII codes of hexadecimal digits.
* Python ints are modelled as `Int` (frame indices, frequency bins, ids).
* The SQLite store of `database.py` is modelled as an explicit state record
  holding the two tables in insertion order; `AUTOINCREMENT` is modelled by
  a `nextId` counter.
-/

namespace Shazam

/-! ### Byte-level rendering of Python f-strings

`f"{f1}|{f2}|{delta_t}"` renders each integer in decimal (with a leading
`-` for negatives) and joins with `|` (byte 124). -/

/-- Decimal digits (as ASCII byte values) of a natural number, most
significant first; fuel-driven recursion mirroring repeated division by 10. -/
def natDecAux : Nat → Nat → List Nat
  | 0, _ => []
  | fuel + 1, n => if n < 10 then [48 + n] else natDecAux fuel (n / 10) ++ [48 + n % 10]

/-- ASCII bytes of the decimal rendering of a natural number. -/
def natDec (n : Nat) : List Nat := natDecAux (n + 1) n

/-- ASCII bytes of Python's `str(i)` for an integer `i`: a `-` sign (byte 45)
followed by the decimal digits when negative. -/
def intBytes (i : Int) : List Nat :=
  if i < 0 then 45 :: natDec i.natAbs else natDec i.natAbs

/-! ### SHA-1 (hashlib.sha1) on byte lists

Standard SHA-1 over a message given as a list of byte values, producing the
lowercase hexadecimal digest as a list of 40 ASCII codes.  All 32-bit words
are `Nat`s kept below `2^32` by explicit reduction. -/

/-- Reduce a natural number to a 32-bit word. -/
def w32 (n : Nat) : Nat := n % 4294967296

/-- Left rotation of a 32-bit word by `s` bits (for `n < 2^32`, `s ≤ 32`). -/
def rotl (s n : Nat) : Nat := w32 (n * 2 ^ s) + n / 2 ^ (32 - s)

/-- Big-endian byte rendering of a natural number in `k` bytes. -/
def beBytes : Nat → Nat → List Nat
  | 0, _ => []
  | k + 1, n => beBytes k (n / 256) ++ [n % 256]

/-- SHA-1 padding: append byte `0x80`, zero bytes up to 56 mod 64, then the
original bit length as 8 big-endian bytes. -/
def sha1pad (msg : List Nat) : List Nat :=
  let L := msg.length
  let k := (120 - (L + 1) % 64) % 64
  msg ++ 128 :: List.replicate k 0 ++ beBytes 8 (8 * L)

/-- Split a byte list into 64-byte chunks (fuel-driven). -/
def chunksAux : Nat → List Nat → List (List Nat)
  | 0, _ => []
  | _ + 1, [] => []
  | fuel + 1, l => l.take 64 :: chunksAux fuel (l.drop 64)

/-- Pack consecutive groups of 4 bytes into big-endian 32-bit words. -/
def toWords : List Nat → List Nat
  | b0 :: b1 :: b2 :: b3 :: rest => (((b0 * 256 + b1) * 256 + b2) * 256 + b3) :: toWords rest
  | _ => []

/-- Message-schedule extension: starting from the 16 chunk words, append
`rotl 1 (w[i-3] xor w[i-8] xor w[i-14] xor w[i-16])` for 64 further rounds. -/
def sha1extend : Nat → List Nat → List Nat
  | 0, acc => acc
  | k + 1, acc =>
    let n := acc.length
    let w := rotl 1 ((acc.getD (n - 3) 0) ^^^ (acc.getD (n - 8) 0) ^^^
                     (acc.getD (n - 14) 0) ^^^ (acc.getD (n - 16) 0))
    sha1extend k (acc ++ [w])

/-- Round constant for SHA-1 round `t`. -/
def sha1K (t : Nat) : Nat :=
  if t < 20 then 1518500249
  else if t < 40 then 1859775393
  else if t < 60 then 2400959708
  else 3395469782

/-- Round function for SHA-1 round `t` (bitwise complement written as
subtraction from `2^32 - 1`, valid for words below `2^32`). -/
def sha1F (t b c d : Nat) : Nat :=
  if t < 20 then (b &&& c) ||| ((4294967295 - b) &&& d)
  else if t < 40 then b ^^^ c ^^^ d
  else if t < 60 then (b &&& c) ||| (b &&& d) ||| (c &&& d)
  else b ^^^ c ^^^ d

/-- Run the 80 compression rounds over the scheduled words. -/
def sha1rounds : Nat → List Nat → Nat × Nat × Nat × Nat × Nat → Nat × Nat × Nat × Nat × Nat
  | _, [], st => st
  | t, w :: ws, (a, b, c, d, e) =>
    let temp := w32 (rotl 5 a + sha1F t b c d + e + sha1K t + w)
    sha1rounds (t + 1) ws (temp, a, rotl 30 b, c, d)

/-- Process one 64-byte chunk, updating the five state words. -/
def sha1chunk (st : Nat × Nat × Nat × Nat × Nat) (chunk : List Nat) :
    Nat × Nat × Nat × Nat × Nat :=
  let ws := sha1extend 64 (toWords chunk)
  match st, sha1rounds 0 ws st with
  | (h0, h1, h2, h3, h4), (a, b, c, d, e) =>
    (w32 (h0 + a), w32 (h1 + b), w32 (h2 + c), w32 (h3 + d), w32 (h4 + e))

/-- The five 32-bit state words of the SHA-1 digest of a byte-list message. -/
def sha1words (msg : List Nat) : List Nat :=
  let padded := sha1pad msg
  let st := (chunksAux padded.length padded).foldl sha1chunk
      (1732584193, 4023233417, 2562383102, 271733878, 3285377520)
  [st.1, st.2.1, st.2.2.1, st.2.2.2.1, st.2.2.2.2]

/-- ASCII code of the lowercase hexadecimal digit for `d < 16`. -/
def hexDigit (d : Nat) : Nat := if d < 10 then 48 + d else 87 + d

/-- Fixed-width (8 hex characters) rendering of one 32-bit word. -/
def hexWord (w : Nat) : List Nat :=
  [hexDigit (w / 16 ^ 7 % 16), hexDigit (w / 16 ^ 6 % 16), hexDigit (w / 16 ^ 5 % 16),
   hexDigit (w / 16 ^ 4 % 16), hexDigit (w / 16 ^ 3 % 16), hexDigit (w / 16 ^ 2 % 16),
   hexDigit (w / 16 ^ 1 % 16), hexDigit (w % 16)]

/-- Lowercase hex digest (40 ASCII codes) of the SHA-1 of a byte message,
mirroring `hashlib.sha1(msg).hexdigest()`. -/
def sha1hex (msg : List Nat) : List Nat := ((sha1words msg).map hexWord).flatten

set_option maxRecDepth 4096 in
/-- Known-answer check: `sha1("abc") = a9993e364706816aba3e25717850c26c9cd0d89d`. -/
theorem sha1hex_abc :
    sha1hex [97, 98, 99] =
      [97, 57, 57, 57, 51, 101, 51, 54, 52, 55, 48, 54, 56, 49, 54, 97, 98, 97,
       51, 101, 50, 53, 55, 49, 55, 56, 53, 48, 99, 50, 54, 99, 57, 99, 100, 48,
       100, 56, 57, 100] := by decide

/-! ### fingerprint.py -/

/-- Constant `TARGET_ZONE_START = 1` (fingerprint.py). -/
def TARGET_ZONE_START : Int := 1

/-- Constant `TARGET_ZONE_END = 200` (fingerprint.py). -/
def TARGET_ZONE_END : Int := 200

/-- Constant `FAN_OUT = 15` (fingerprint.py). -/
def FAN_OUT : Nat := 15

/-- The hash token of one anchor/target pair:
`hashlib.sha1(f"{f1}|{f2}|{delta_t}".encode()).hexdigest()[:20]`. -/
def hashToken (f1 f2 dt : Int) : List Nat :=
  (sha1hex (intBytes f1 ++ 124 :: intBytes f2 ++ 124 :: intBytes dt)).take 20

/-- A peak is a `(time_idx, freq_idx)` pair. -/
abbrev Peak := Int × Int

/-- The time-only comparison used by `sorted(peaks, key=lambda x: x[0])`. -/
def timeLE (a b : Peak) : Prop := a.1 ≤ b.1

instance : DecidableRel timeLE := fun a b => inferInstanceAs (Decidable (a.1 ≤ b.1))

instance : IsTotal Peak timeLE := ⟨fun a b => le_total a.1 b.1⟩

instance : IsTrans Peak timeLE := ⟨fun _ _ _ h1 h2 => le_trans h1 h2⟩

/-- The sort `sorted(peaks, key=lambda x: x[0])` of fingerprint.py line 19:
Python's sort is stable, so this is a stable sort on the time component
only; `List.insertionSort` with the non-strict time comparison realises
exactly that stable sort. -/
def sortPeaks (peaks : List Peak) : List Peak :=
  List.insertionSort timeLE peaks

/-- The inner loop of `generate_hashes` for one anchor `(t1, f1)`: scan the
peaks after the anchor in sorted order; `delta_t < TARGET_ZONE_START` is
skipped (`continue`), `delta_t > TARGET_ZONE_END` stops the scan (`break`),
an accepted target is appended, and the scan stops once `FAN_OUT` targets
have been accepted.  `cnt` is the number of targets accepted so far. -/
def collectTargets (t1 : Int) : List Peak → Nat → List (Int × Int × Int)
  | [], _ => []
  | (t2, f2) :: rest, cnt =>
    let dt := t2 - t1
    if dt < TARGET_ZONE_START then collectTargets t1 rest cnt
    else if dt > TARGET_ZONE_END then []
    else if cnt + 1 ≥ FAN_OUT then [(t2, f2, dt)]
    else (t2, f2, dt) :: collectTargets t1 rest (cnt + 1)

/-- Outer loop of `generate_hashes` over the sorted peak list: each peak in
turn is the anchor, scanning the peaks after it (indices `i+1` onward). -/
def genHashesSorted (song_id : Option Int) : List Peak → List (List Nat × Int × Option Int)
  | [] => []
  | (t1, f1) :: rest =>
    (collectTargets t1 rest 0).map (fun tg => (hashToken f1 tg.2.1 tg.2.2, t1, song_id)) ++
      genHashesSorted song_id rest

/-- Embedding of `generate_hashes(peaks, song_id)` (fingerprint.py):
sort the peaks by time, then emit one `(hash, anchor_time, song_id)` tuple
per accepted anchor/target pair. -/
def generate_hashes (peaks : List Peak) (song_id : Option Int) :
    List (List Nat × Int × Option Int) :=
  genHashesSorted song_id (sortPeaks peaks)

/-- Modelled from the spec's words (for comparison with `sortPeaks`): sort
ascending by `t`, with ties broken by ascending `f`. -/
def timeFreqLE (a b : Peak) : Prop := a.1 < b.1 ∨ (a.1 = b.1 ∧ a.2 ≤ b.2)

instance : DecidableRel timeFreqLE := fun a b =>
  inferInstanceAs (Decidable (a.1 < b.1 ∨ (a.1 = b.1 ∧ a.2 ≤ b.2)))

/-- Modelled from the spec's words: the peak order claimed by the spec,
ascending by time with ties broken by ascending frequency. -/
def sortPeaksSpec (peaks : List Peak) : List Peak :=
  List.insertionSort timeFreqLE peaks

/-! ### Supporting lemmas about the hasher -/

theorem collectTargets_mem {t1 : Int} {l : List Peak} {cnt : Nat}
    {x : Int × Int × Int} (hx : x ∈ collectTargets t1 l cnt) :
    ∃ t2 f2 : Int, (t2, f2) ∈ l ∧ x = (t2, f2, t2 - t1) ∧
      1 ≤ t2 - t1 ∧ t2 - t1 ≤ 200 := by
  induction l generalizing cnt with
  | nil => simp [collectTargets] at hx
  | cons p rest ih =>
    obtain ⟨t2, f2⟩ := p
    simp only [collectTargets, TARGET_ZONE_START, TARGET_ZONE_END, FAN_OUT] at hx
    split at hx
    · obtain ⟨t2', f2', hm, he, h1, h2⟩ := ih hx
      exact ⟨t2', f2', List.mem_cons_of_mem _ hm, he, h1, h2⟩
    · split at hx
      · simp at hx
      · split at hx
        · simp only [List.mem_singleton] at hx
          exact ⟨t2, f2, List.mem_cons_self _ _, hx, by omega, by omega⟩
        · rcases List.mem_cons.1 hx with h | h
          · exact ⟨t2, f2, List.mem_cons_self _ _, h, by omega, by omega⟩
          · obtain ⟨t2', f2', hm, he, h1, h2⟩ := ih h
            exact ⟨t2', f2', List.mem_cons_of_mem _ hm, he, h1, h2⟩

theorem genHashesSorted_mem {sid : Option Int} {l : List Peak}
    {y : List Nat × Int × Option Int} (hy : y ∈ genHashesSorted sid l) :
    ∃ t1 f1 t2 f2 : Int, (t1, f1) ∈ l ∧ (t2, f2) ∈ l ∧
      y = (hashToken f1 f2 (t2 - t1), t1, sid) ∧ 1 ≤ t2 - t1 ∧ t2 - t1 ≤ 200 := by
  induction l with
  | nil => simp [genHashesSorted] at hy
  | cons p rest ih =>
    obtain ⟨t1, f1⟩ := p
    simp only [genHashesSorted, List.mem_append, List.mem_map] at hy
    rcases hy with ⟨tg, htg, rfl⟩ | hy
    · obtain ⟨t2, f2, hm, he, h1, h2⟩ := collectTargets_mem htg
      subst he
      exact ⟨t1, f1, t2, f2, List.mem_cons_self _ _, List.mem_cons_of_mem _ hm,
        rfl, h1, h2⟩
    · obtain ⟨t1', f1', t2', f2', hm1, hm2, he, h1, h2⟩ := ih hy
      exact ⟨t1', f1', t2', f2', List.mem_cons_of_mem _ hm1,
        List.mem_cons_of_mem _ hm2, he, h1, h2⟩

theorem collectTargets_length (t1 : Int) :
    ∀ (l : List Peak) (cnt : Nat), cnt < FAN_OUT →
      (collectTargets t1 l cnt).length ≤ FAN_OUT - cnt := by
  intro l
  induction l with
  | nil => intro cnt _; simp [collectTargets]
  | cons p rest ih =>
    intro cnt hcnt
    obtain ⟨t2, f2⟩ := p
    simp only [collectTargets]
    split
    · exact ih cnt hcnt
    · split
      · simp
      · split
        · simp only [List.length_singleton]
          omega
        · rename_i hfan
          simp only [List.length_cons]
          have := ih (cnt + 1) (by simp only [FAN_OUT] at hfan ⊢; omega)
          omega

theorem genHashesSorted_length (sid : Option Int) :
    ∀ l : List Peak, (genHashesSorted sid l).length ≤ FAN_OUT * l.length := by
  intro l
  induction l with
  | nil => simp [genHashesSorted]
  | cons p rest ih =>
    obtain ⟨t1, f1⟩ := p
    simp only [genHashesSorted, List.length_append, List.length_map, List.length_cons]
    have h := collectTargets_length t1 rest 0 (by simp [FAN_OUT])
    simp only [Nat.sub_zero] at h
    calc (collectTargets t1 rest 0).length + (genHashesSorted sid rest).length
        ≤ FAN_OUT + FAN_OUT * rest.length := Nat.add_le_add h ih
      _ = FAN_OUT * (rest.length + 1) := by ring

/-- Stability of `orderedInsert` for the time-only order: filtering on any
fixed time `t` commutes with the insertion, putting the new element first
among the equal-time elements. -/
theorem filter_orderedInsert_timeLE (x : Peak) (t : Int) :
    ∀ l : List Peak,
      (List.orderedInsert timeLE x l).filter (fun p => p.1 == t) =
        if x.1 = t then x :: l.filter (fun p => p.1 == t)
        else l.filter (fun p => p.1 == t) := by
  intro l
  induction l with
  | nil =>
    by_cases hx : x.1 = t <;>
      simp [List.orderedInsert, List.filter_cons, beq_iff_eq, hx]
  | cons y l ih =>
    by_cases hle : timeLE x y
    · rw [show List.orderedInsert timeLE x (y :: l) = x :: y :: l from by
        simp [List.orderedInsert, hle]]
      by_cases hx : x.1 = t <;> simp [List.filter_cons, beq_iff_eq, hx]
    · rw [show List.orderedInsert timeLE x (y :: l) =
          y :: List.orderedInsert timeLE x l from by
        simp [List.orderedInsert, hle]]
      have hlt : y.1 < x.1 := by
        simp only [timeLE, not_le] at hle; exact hle
      by_cases hy : y.1 = t
      · have hx : ¬ x.1 = t := by omega
        simp [List.filter_cons, beq_iff_eq, hy, hx, ih]
      · by_cases hx : x.1 = t <;>
          simp [List.filter_cons, beq_iff_eq, hy, hx, ih]

/-- Stability of the sort used by `generate_hashes`: for every time `t`,
the equal-time peaks appear in `sortPeaks P` in their input order. -/
theorem sortPeaks_filter_time (t : Int) :
    ∀ P : List Peak,
      (sortPeaks P).filter (fun p => p.1 == t) = P.filter (fun p => p.1 == t) := by
  intro P
  induction P with
  | nil => rfl
  | cons x P ih =>
    show (List.orderedInsert timeLE x (List.insertionSort timeLE P)).filter _ = _
    rw [filter_orderedInsert_timeLE]
    show _ = (x :: P).filter (fun p => p.1 == t)
    rw [show List.insertionSort timeLE P = sortPeaks P from rfl, ih]
    by_cases hx : x.1 = t <;> simp [List.filter_cons, beq_iff_eq, hx]

/-- The hex digest always has exactly 40 characters. -/
theorem sha1hex_length (msg : List Nat) : (sha1hex msg).length = 40 := rfl

/-- The truncated token always has exactly 20 characters. -/
theorem hashToken_length (f1 f2 dt : Int) : (hashToken f1 f2 dt).length = 20 := by
  simp only [hashToken]
  rw [List.length_take, sha1hex_length]
  decide

/-- Evaluation of `generate_hashes` on a two-peak list whose time gap lies in
the target zone: exactly one hash is emitted, anchored at the earlier peak. -/
theorem generate_hashes_pair (t f1 f2 d : Int) (sid : Option Int)
    (h1 : 1 ≤ d) (h2 : d ≤ 200) :
    generate_hashes [(t, f1), (t + d, f2)] sid = [(hashToken f1 f2 d, t, sid)] := by
  have hle : timeLE (t, f1) (t + d, f2) := by simp only [timeLE]; omega
  have hsort : sortPeaks [(t, f1), (t + d, f2)] = [(t, f1), (t + d, f2)] := by
    simp [sortPeaks, List.insertionSort, List.orderedInsert, hle]
  show genHashesSorted sid (sortPeaks [(t, f1), (t + d, f2)]) = _
  rw [hsort]
  have hct : collectTargets t [(t + d, f2)] 0 = [(t + d, f2, d)] := by
    simp only [collectTargets, TARGET_ZONE_START, TARGET_ZONE_END, FAN_OUT,
      show t + d - t = d from by ring]
    rw [if_neg (show ¬ d < 1 by omega), if_neg (show ¬ d > 200 by omega),
      if_neg (show ¬ 0 + 1 ≥ 15 by norm_num)]
  simp only [genHashesSorted]
  rw [hct]
  simp [genHashesSorted, collectTargets]

/-- Claim C3: every emitted hash is anchored at a peak of the input list and
arises from a target peak whose time gap lies in `[1, 200]`; a single peak
yields no hashes, and two-peak lists at gap `0` or `201` yield no hashes. -/
theorem c3_target_zone :
    (∀ (P : List Peak) (sid : Option Int) (x : List Nat × Int × Option Int),
        x ∈ generate_hashes P sid →
        ∃ t1 f1 t2 f2 : Int, (t1, f1) ∈ P ∧ (t2, f2) ∈ P ∧
          x = (hashToken f1 f2 (t2 - t1), t1, sid) ∧
          1 ≤ t2 - t1 ∧ t2 - t1 ≤ 200) ∧
    (∀ (p : Peak) (sid : Option Int), generate_hashes [p] sid = []) ∧
    (∀ (t f1 f2 : Int) (sid : Option Int), generate_hashes [(t, f1), (t, f2)] sid = []) ∧
    (∀ (t f1 f2 : Int) (sid : Option Int),
        generate_hashes [(t, f1), (t + 201, f2)] sid = []) := by
  refine ⟨?_, ?_, ?_, ?_⟩
  · intro P sid x hx
    have hx' : x ∈ genHashesSorted sid (sortPeaks P) := hx
    obtain ⟨t1, f1, t2, f2, hm1, hm2, he, hb1, hb2⟩ := genHashesSorted_mem hx'
    have hperm := List.perm_insertionSort timeLE P
    exact ⟨t1, f1, t2, f2, hperm.mem_iff.1 hm1, hperm.mem_iff.1 hm2, he, hb1, hb2⟩
  · intro p sid
    obtain ⟨t, f⟩ := p
    simp [generate_hashes, sortPeaks, List.insertionSort, List.orderedInsert,
      genHashesSorted, collectTargets]
  · intro t f1 f2 sid
    have hle : timeLE (t, f1) (t, f2) := by simp [timeLE]
    have hsort : sortPeaks [(t, f1), (t, f2)] = [(t, f1), (t, f2)] := by
      simp [sortPeaks, List.insertionSort, List.orderedInsert, hle]
    show genHashesSorted sid (sortPeaks [(t, f1), (t, f2)]) = _
    rw [hsort]
    have hct : collectTargets t [(t, f2)] 0 = [] := by
      simp only [collectTargets, TARGET_ZONE_START]
      rw [if_pos (show t - t < 1 by omega)]
    simp only [genHashesSorted]
    rw [hct]
    simp [genHashesSorted, collectTargets]
  · intro t f1 f2 sid
    have hle : timeLE (t, f1) (t + 201, f2) := by simp only [timeLE]; omega
    have hsort : sortPeaks [(t, f1), (t + 201, f2)] = [(t, f1), (t + 201, f2)] := by
      simp [sortPeaks, List.insertionSort, List.orderedInsert, hle]
    show genHashesSorted sid (sortPeaks [(t, f1), (t + 201, f2)]) = _
    rw [hsort]
    have hct : collectTargets t [(t + 201, f2)] 0 = [] := by
      simp only [collectTargets, TARGET_ZONE_START, TARGET_ZONE_END,
        show t + 201 - t = 201 from by ring]
      rw [if_neg (show ¬ (201 : Int) < 1 by omega),
        if_pos (show (201 : Int) > 200 by omega)]
    simp only [genHashesSorted]
    rw [hct]
    simp [genHashesSorted, collectTargets]

set_option maxRecDepth 8192 in
/-- Witness for C3 on the concrete peak list `[(0, 2), (3, 7)]`. -/
theorem c3_target_zone_witness :
    ∃ t1 f1 t2 f2 : Int, ((t1, f1) ∈ ([(0, 2), (3, 7)] : List Peak)) ∧
      ((t2, f2) ∈ ([(0, 2), (3, 7)] : List Peak)) ∧
      ((hashToken 2 7 3, (0 : Int), (none : Option Int)) =
        (hashToken f1 f2 (t2 - t1), t1, none)) ∧
      1 ≤ t2 - t1 ∧ t2 - t1 ≤ 200 :=
  c3_target_zone.1 [(0, 2), (3, 7)] none (hashToken 2 7 3, 0, none) (by decide)

/-- Claim C4: the number of emitted hashes is at most `FAN_OUT` times the
number of peaks. -/
theorem c4_fan_out_bound :
    ∀ (P : List Peak) (sid : Option Int),
      (generate_hashes P sid).length ≤ FAN_OUT * P.length := by
  intro P sid
  have h := genHashesSorted_length sid (sortPeaks P)
  have hl : (sortPeaks P).length = P.length :=
    (List.perm_insertionSort timeLE P).length_eq
  calc (generate_hashes P sid).length
      ≤ FAN_OUT * (sortPeaks P).length := h
    _ = FAN_OUT * P.length := by rw [hl]

/-- Claim C7: the token has fixed width 20, and the emitted token depends
only on `(f1, f2, Δt)` — two anchor/target pairs with the same frequencies
and time gap receive the same token regardless of their anchor times or the
`song_id` argument. -/
theorem c7_token_deterministic :
    (∀ f1 f2 dt : Int, (hashToken f1 f2 dt).length = 20) ∧
    (∀ (t t' f1 f2 d : Int) (sid sid' : Option Int), 1 ≤ d → d ≤ 200 →
      (generate_hashes [(t, f1), (t + d, f2)] sid).map (fun h => h.1) =
        (generate_hashes [(t', f1), (t' + d, f2)] sid').map (fun h => h.1)) := by
  refine ⟨hashToken_length, ?_⟩
  intro t t' f1 f2 d sid sid' h1 h2
  rw [generate_hashes_pair t f1 f2 d sid h1 h2,
    generate_hashes_pair t' f1 f2 d sid' h1 h2]
  simp

set_option maxRecDepth 8192 in
/-- Witness for C7: concrete token width, and the lists `[(0,2),(3,7)]` and
`[(5,2),(8,7)]` emit the same token stream. -/
theorem c7_token_deterministic_witness :
    (hashToken 2 7 3).length = 20 ∧
    (generate_hashes [((0 : Int), (2 : Int)), (3, 7)] none).map (fun h => h.1) =
      (generate_hashes [((5 : Int), (2 : Int)), (8, 7)] (some 1)).map (fun h => h.1) :=
  ⟨c7_token_deterministic.1 2 7 3, by
    have h := c7_token_deterministic.2 0 5 2 7 3 none (some 1) (by norm_num) (by norm_num)
    norm_num at h
    exact h⟩

set_option maxRecDepth 8192 in
/-- Counterexample to C8 as stated: the sort used by `generate_hashes` does
not break ties by frequency — on `[(0,5),(0,3)]` the stable time-only sort
keeps the input order, unlike the time-then-frequency order, and the
difference is observable in the emitted hash stream. -/
theorem c8_tie_order_counterexample :
    sortPeaks [((0 : Int), (5 : Int)), (0, 3)] ≠ sortPeaksSpec [(0, 5), (0, 3)] ∧
    generate_hashes [((0 : Int), (5 : Int)), (0, 3), (1, 1)] none ≠
      genHashesSorted none (sortPeaksSpec [(0, 5), (0, 3), (1, 1)]) := by
  constructor
  · decide
  · decide

/-- Amended C8: `generate_hashes` processes peaks in the order given by a
stable sort ascending by time only — the output of the sort is a permutation
of the input, sorted by time, and peaks sharing a time value stay in their
input order (rather than being reordered by frequency). -/
theorem c8_stable_sort_amended :
    ∀ (P : List Peak) (sid : Option Int),
      generate_hashes P sid = genHashesSorted sid (sortPeaks P) ∧
      (sortPeaks P).Perm P ∧
      List.Sorted timeLE (sortPeaks P) ∧
      ∀ t : Int, (sortPeaks P).filter (fun p => p.1 == t) =
        P.filter (fun p => p.1 == t) := by
  intro P sid
  exact ⟨rfl, List.perm_insertionSort timeLE P,
    List.sorted_insertionSort timeLE P, fun t => sortPeaks_filter_time t P⟩

/-! ### database.py

The SQLite store is modelled by its observable state: the `songs` and
`fingerprints` tables in insertion order, plus the `AUTOINCREMENT` counter
for the next song id.  `SELECT ... WHERE hash = ?` without `ORDER BY` is
modelled as a scan of the table in insertion order. -/

/-- State of the store of `database.py`. -/
structure FingerprintDatabase where
  nextId : Int
  songs : List (Int × String)
  fingerprints : List (List Nat × Int × Int)
  deriving DecidableEq

/-- Embedding of `FingerprintDatabase.insert_song`: allocate the next id,
append the song row, and append one fingerprint row `(hash, song_id,
time_offset)` per input tuple, ignoring the input tuple's third component. -/
def insert_song (db : FingerprintDatabase) (name : String)
    (hashes : List (List Nat × Int × Option Int)) : Int × FingerprintDatabase :=
  let song_id := db.nextId
  (song_id,
   { nextId := song_id + 1,
     songs := db.songs ++ [(song_id, name)],
     fingerprints := db.fingerprints ++ hashes.map (fun h => (h.1, song_id, h.2.1)) })

/-- Embedding of `FingerprintDatabase.query`: for each query tuple, emit one
`(song_id, db_time_offset, query_time_offset)` triple per stored row whose
hash matches. -/
def query (db : FingerprintDatabase) (hashes : List (List Nat × Int × Option Int)) :
    List (Int × Int × Int) :=
  hashes.flatMap (fun h =>
    (db.fingerprints.filter (fun r => r.1 == h.1)).map (fun r => (r.2.1, r.2.2, h.2.1)))

/-- Embedding of `FingerprintDatabase.get_song`: the name of the first song
row carrying the id, if any. -/
def get_song (db : FingerprintDatabase) (song_id : Int) : Option String :=
  (db.songs.find? (fun s => s.1 == song_id)).map (fun s => s.2)

/-- Well-formedness of a reachable store state: every song id and every
fingerprint's song id is below the allocation counter. -/
def WFDatabase (db : FingerprintDatabase) : Prop :=
  (∀ s ∈ db.songs, s.1 < db.nextId) ∧ (∀ r ∈ db.fingerprints, r.2.1 < db.nextId)

/-- The empty store is well formed and `insert_song` preserves
well-formedness, so every reachable state satisfies `WFDatabase`. -/
theorem wf_insert_song (db : FingerprintDatabase) (name : String)
    (hs : List (List Nat × Int × Option Int)) (h : WFDatabase db) :
    WFDatabase (insert_song db name hs).2 := by
  obtain ⟨h1, h2⟩ := h
  constructor
  · intro s hsmem
    rcases List.mem_append.1 hsmem with hm | hm
    · have := h1 s hm
      simp only [insert_song]
      omega
    · simp only [List.mem_singleton] at hm
      subst hm
      simp [insert_song]
  · intro r hrmem
    rcases List.mem_append.1 hrmem with hm | hm
    · have := h2 r hm
      simp only [insert_song]
      omega
    · obtain ⟨e, _, rfl⟩ := List.mem_map.1 hm
      simp [insert_song]

theorem filter_flatMap {α β : Type} (l : List α) (f : α → List β) (p : β → Bool) :
    (l.flatMap f).filter p = l.flatMap (fun a => (f a).filter p) := by
  induction l with
  | nil => rfl
  | cons a l ih => simp [List.flatMap_cons, List.filter_append, ih]

theorem find?_append_fresh (name : String) (id : Int) :
    ∀ l : List (Int × String), (∀ s ∈ l, s.1 < id) →
      List.find? (fun s => s.1 == id) (l ++ [(id, name)]) = some (id, name) := by
  intro l
  induction l with
  | nil => simp
  | cons s l ih =>
    intro h
    have hs : s.1 < id := h s (List.mem_cons_self _ _)
    rw [List.cons_append, List.find?_cons]
    have : (s.1 == id) = false := by
      rw [beq_eq_false_iff_ne]
      omega
    rw [this]
    exact ih (fun x hx => h x (List.mem_cons_of_mem _ hx))

/-- Per-query-tuple shape of the new-song query results: among the triples
produced for one query tuple `e`, those carrying the fresh id are exactly one
triple per duplicate of `e`'s hash within the inserted list. -/
theorem query_filter_new (F : List (List Nat × Int × Int)) (id : Int)
    (hF : ∀ r ∈ F, r.2.1 < id)
    (hs : List (List Nat × Int × Option Int)) (e : List Nat × Int × Option Int) :
    (((F ++ hs.map (fun h => (h.1, id, h.2.1))).filter (fun r => r.1 == e.1)).map
        (fun r => (r.2.1, r.2.2, e.2.1))).filter (fun m => m.1 == id) =
      (hs.filter (fun e2 => e2.1 == e.1)).map (fun e2 => (id, e2.2.1, e.2.1)) := by
  rw [List.filter_append, List.map_append, List.filter_append]
  have h1 : ((F.filter (fun r => r.1 == e.1)).map
      (fun r => (r.2.1, r.2.2, e.2.1))).filter (fun m => m.1 == id) = [] := by
    rw [List.filter_map]
    have hnil : (F.filter (fun r => r.1 == e.1)).filter
        ((fun m => m.1 == id) ∘ (fun r => (r.2.1, r.2.2, e.2.1))) = [] := by
      rw [List.filter_eq_nil_iff]
      intro r hr
      have hlt := hF r (List.mem_of_mem_filter hr)
      simp only [Function.comp, beq_iff_eq]
      omega
    rw [hnil, List.map_nil]
  have h2 : ((hs.map (fun h => (h.1, id, h.2.1))).filter (fun r => r.1 == e.1)) =
      (hs.filter (fun e2 => e2.1 == e.1)).map (fun h => (h.1, id, h.2.1)) := by
    rw [List.filter_map]
    rfl
  rw [h1, List.nil_append, h2, List.map_map]
  rw [List.filter_eq_self.2]
  · rfl
  · intro m hm
    obtain ⟨e2, _, rfl⟩ := List.mem_map.1 hm
    exact beq_self_eq_true id

/-- Claim C5: store round-trip.  After `id = insert_song(name, hs)` on a
well-formed store, `get_song id` returns `name`; the query results carrying
the new id are exactly one triple per query tuple and per duplicate of its
hash within `hs`; and empty `hs` creates the song row with no fingerprint
rows. -/
theorem c5_round_trip :
    ∀ (db : FingerprintDatabase) (name : String)
      (hs : List (List Nat × Int × Option Int)), WFDatabase db →
      get_song (insert_song db name hs).2 (insert_song db name hs).1 = some name ∧
      (query (insert_song db name hs).2 hs).filter
          (fun m => m.1 == (insert_song db name hs).1) =
        hs.flatMap (fun e => (hs.filter (fun e2 => e2.1 == e.1)).map
          (fun e2 => ((insert_song db name hs).1, e2.2.1, e.2.1))) ∧
      (hs = [] → (insert_song db name hs).2.fingerprints = db.fingerprints ∧
        ((insert_song db name hs).1, name) ∈ (insert_song db name hs).2.songs) := by
  intro db name hs hwf
  obtain ⟨hsongs, hfps⟩ := hwf
  refine ⟨?_, ?_, ?_⟩
  · show (List.find? (fun s => s.1 == db.nextId)
        (db.songs ++ [(db.nextId, name)])).map (fun s => s.2) = some name
    rw [find?_append_fresh name db.nextId db.songs hsongs]
    rfl
  · show ((hs.flatMap (fun h =>
        ((db.fingerprints ++ hs.map (fun h2 => (h2.1, db.nextId, h2.2.1))).filter
          (fun r => r.1 == h.1)).map (fun r => (r.2.1, r.2.2, h.2.1)))).filter
            (fun m => m.1 == db.nextId)) =
      hs.flatMap (fun e => (hs.filter (fun e2 => e2.1 == e.1)).map
        (fun e2 => (db.nextId, e2.2.1, e.2.1)))
    rw [filter_flatMap]
    congr 1
    funext e
    exact query_filter_new db.fingerprints db.nextId hfps hs e
  · intro h
    subst h
    constructor
    · simp [insert_song]
    · simp [insert_song]

/-- Witness for C5: inserting two tuples with a duplicated hash into the
empty store. -/
theorem c5_round_trip_witness :
    get_song (insert_song ⟨1, [], []⟩ "a" [([7], 0, none), ([7], 3, some 9)]).2
        (insert_song ⟨1, [], []⟩ "a" [([7], 0, none), ([7], 3, some 9)]).1 = some "a" ∧
    (query (insert_song ⟨1, [], []⟩ "a" [([7], 0, none), ([7], 3, some 9)]).2
        [([7], 0, none), ([7], 3, some 9)]).filter
      (fun m => m.1 == (insert_song ⟨1, [], []⟩ "a" [([7], 0, none), ([7], 3, some 9)]).1) =
      [([7], 0, none), ([7], 3, some 9)].flatMap
        (fun e => ([([7], 0, none), ([7], 3, some 9)].filter (fun e2 => e2.1 == e.1)).map
          (fun e2 =>
            ((insert_song ⟨1, [], []⟩ "a" [([7], 0, none), ([7], 3, some 9)]).1,
              e2.2.1, e.2.1))) ∧
    ([([7], 0, none), ([7], 3, some 9)] = ([] : List (List Nat × Int × Option Int)) →
      (insert_song ⟨1, [], []⟩ "a" [([7], 0, none), ([7], 3, some 9)]).2.fingerprints =
        (⟨1, [], []⟩ : FingerprintDatabase).fingerprints ∧
      ((insert_song ⟨1, [], []⟩ "a" [([7], 0, none), ([7], 3, some 9)]).1, "a") ∈
        (insert_song ⟨1, [], []⟩ "a" [([7], 0, none), ([7], 3, some 9)]).2.songs) :=
  c5_round_trip ⟨1, [], []⟩ "a" [([7], 0, none), ([7], 3, some 9)]
    ⟨by simp, by simp⟩

/-- Claim C10: `insert_song` ignores the third component of every input
tuple — the stored rows are determined by the hash and time components
alone, and every newly stored row carries the freshly allocated id. -/
theorem c10_song_id_ignored :
    ∀ (db : FingerprintDatabase) (name : String)
      (hs hs2 : List (List Nat × Int × Option Int)),
      hs.map (fun e => (e.1, e.2.1)) = hs2.map (fun e => (e.1, e.2.1)) →
      insert_song db name hs = insert_song db name hs2 ∧
      ∀ r ∈ (insert_song db name hs).2.fingerprints,
        r ∈ db.fingerprints ∨ r.2.1 = (insert_song db name hs).1 := by
  intro db name hs hs2 hmap
  constructor
  · have hrows : hs.map (fun h => (h.1, db.nextId, h.2.1)) =
        hs2.map (fun h => (h.1, db.nextId, h.2.1)) := by
      have := congrArg
        (List.map (fun q : List Nat × Int => (q.1, db.nextId, q.2))) hmap
      simpa [List.map_map, Function.comp] using this
    simp only [insert_song, hrows]
  · intro r hr
    rcases List.mem_append.1 hr with hm | hm
    · exact Or.inl hm
    · obtain ⟨e, _, rfl⟩ := List.mem_map.1 hm
      exact Or.inr rfl

/-- Witness for C10: two tuple lists differing only in their third
components produce identical stores, and the stored rows carry the new id. -/
theorem c10_song_id_ignored_witness :
    insert_song ⟨1, [], []⟩ "a" [([7], 0, none), ([8], 3, some 5)] =
      insert_song ⟨1, [], []⟩ "a" [([7], 0, some 2), ([8], 3, none)] ∧
    ∀ r ∈ (insert_song ⟨1, [], []⟩ "a" [([7], 0, none), ([8], 3, some 5)]).2.fingerprints,
      r ∈ (⟨1, [], []⟩ : FingerprintDatabase).fingerprints ∨
        r.2.1 = (insert_song ⟨1, [], []⟩ "a" [([7], 0, none), ([8], 3, some 5)]).1 :=
  c10_song_id_ignored ⟨1, [], []⟩ "a" [([7], 0, none), ([8], 3, some 5)]
    [([7], 0, some 2), ([8], 3, none)] (by decide)

/-! ### matcher.py

The `defaultdict(int)` vote map of `find_matches` is observable through two
things: the count of each key (`alignmentCounts`) and the dict's iteration
order, which in Python is the order of first insertion (`voteKeys`).
Python's `max(d, key=d.get)` scans the keys in that order and keeps the
first key whose value is strictly greater than the current best — i.e. the
first-inserted key among those attaining the maximum (`pyMax`). -/

/-- Constant `MIN_MATCHES = 5` (matcher.py). -/
def MIN_MATCHES : Nat := 5

/-- Result record of a successful identification (matcher.py); the float
`confidence` is modelled as an exact rational. -/
structure MatchResult where
  song_id : Int
  song_name : Option String
  confidence : ℚ
  aligned_matches : Nat
  deriving DecidableEq

/-- Vote key of one probe triple: `(song_id, db_offset - query_offset)`. -/
def alignKey (m : Int × Int × Int) : Int × Int := (m.1, m.2.1 - m.2.2)

/-- First-occurrence deduplication with a seen-set accumulator: scan left to
right, keeping a key only the first time it appears. -/
def keysFirstAcc : List (Int × Int) → List (Int × Int) → List (Int × Int)
  | [], _ => []
  | k :: rest, seen =>
    if k ∈ seen then keysFirstAcc rest seen
    else k :: keysFirstAcc rest (k :: seen)

/-- The keys of a Python dict built by incrementing a `defaultdict`, in
insertion order: each key listed at its first occurrence. -/
def keysFirst (l : List (Int × Int)) : List (Int × Int) := keysFirstAcc l []

/-- Python's `max(iterable, key=g)`: left fold keeping the current best,
replaced only when a strictly greater value appears. -/
def pyMax (g : Int × Int → Nat) : List (Int × Int) → Option (Int × Int)
  | [] => none
  | k :: ks => some (ks.foldl (fun b x => if g x > g b then x else b) k)

/-- Final content of the `alignment_counts` defaultdict: the number of probe
triples voting for key `k`. -/
def alignmentCounts (ms : List (Int × Int × Int)) (k : Int × Int) : Nat :=
  (ms.map alignKey).count k

/-- Iteration order of the `alignment_counts` dict: keys in order of first
insertion. -/
def voteKeys (ms : List (Int × Int × Int)) : List (Int × Int) :=
  keysFirst (ms.map alignKey)

/-- The `best_key` of matcher.py: `max(alignment_counts,
key=alignment_counts.get)`.  `none` only when the vote map is empty, which
`find_matches` never reaches (it returns early on empty probe results). -/
def bestKey (ms : List (Int × Int × Int)) : Option (Int × Int) :=
  pyMax (alignmentCounts ms) (voteKeys ms)

/-- The part of `find_matches` that scores a list of probe results:
vote, take the best key, apply the `MIN_MATCHES` threshold, and build the
`MatchResult`.  `qlen` is `len(query_hashes)`. -/
def scoreHits (db : FingerprintDatabase) (qlen : Nat)
    (ms : List (Int × Int × Int)) : Option MatchResult :=
  match bestKey ms with
  | none => none
  | some bk =>
    let best_count := alignmentCounts ms bk
    if best_count < MIN_MATCHES then none
    else some ⟨bk.1, get_song db bk.1, (best_count : ℚ) / (qlen : ℚ), best_count⟩

/-- Embedding of `find_matches(query_hashes, db)` (matcher.py). -/
def find_matches (query_hashes : List (List Nat × Int × Option Int))
    (db : FingerprintDatabase) : Option MatchResult :=
  if query_hashes = [] then none
  else
    let ms := query db query_hashes
    if ms = [] then none
    else scoreHits db query_hashes.length ms

/-- The maximum vote count over all keys (`best_count` for the winning
key). -/
def bestAlignCount (ms : List (Int × Int × Int)) : Nat :=
  ((voteKeys ms).map (alignmentCounts ms)).foldr max 0

/-! ### Supporting lemmas about the matcher -/

theorem pyMax_foldl_mem (g : Int × Int → Nat) :
    ∀ (l : List (Int × Int)) (acc : Int × Int),
      l.foldl (fun b x => if g x > g b then x else b) acc = acc ∨
        l.foldl (fun b x => if g x > g b then x else b) acc ∈ l := by
  intro l
  induction l with
  | nil => intro acc; exact Or.inl rfl
  | cons x l ih =>
    intro acc
    simp only [List.foldl_cons]
    rcases ih (if g x > g acc then x else acc) with h | h
    · rw [h]
      split
      · exact Or.inr (List.mem_cons_self _ _)
      · exact Or.inl rfl
    · exact Or.inr (List.mem_cons_of_mem _ h)

theorem pyMax_foldl_le (g : Int × Int → Nat) :
    ∀ (l : List (Int × Int)) (acc : Int × Int),
      g acc ≤ g (l.foldl (fun b x => if g x > g b then x else b) acc) ∧
        ∀ x ∈ l, g x ≤ g (l.foldl (fun b x => if g x > g b then x else b) acc) := by
  intro l
  induction l with
  | nil => intro acc; exact ⟨le_refl _, by simp⟩
  | cons x l ih =>
    intro acc
    simp only [List.foldl_cons]
    obtain ⟨h1, h2⟩ := ih (if g x > g acc then x else acc)
    have hacc : g acc ≤ g (if g x > g acc then x else acc) := by
      split <;> omega
    have hx : g x ≤ g (if g x > g acc then x else acc) := by
      split <;> omega
    refine ⟨le_trans hacc h1, ?_⟩
    intro y hy
    rcases List.mem_cons.1 hy with rfl | hy
    · exact le_trans hx h1
    · exact h2 y hy

theorem pyMax_mem {g : Int × Int → Nat} {l : List (Int × Int)} {b : Int × Int}
    (h : pyMax g l = some b) : b ∈ l := by
  cases l with
  | nil => simp [pyMax] at h
  | cons k ks =>
    simp only [pyMax, Option.some_inj] at h
    subst h
    rcases pyMax_foldl_mem g ks k with h | h
    · rw [h]; exact List.mem_cons_self _ _
    · exact List.mem_cons_of_mem _ h

theorem pyMax_le {g : Int × Int → Nat} {l : List (Int × Int)} {b : Int × Int}
    (h : pyMax g l = some b) : ∀ x ∈ l, g x ≤ g b := by
  cases l with
  | nil => simp [pyMax] at h
  | cons k ks =>
    simp only [pyMax, Option.some_inj] at h
    subst h
    obtain ⟨h1, h2⟩ := pyMax_foldl_le g ks k
    intro x hx
    rcases List.mem_cons.1 hx with rfl | hx
    · exact h1
    · exact h2 x hx

theorem pyMax_foldl_unique (g : Int × Int → Nat) (k : Int × Int) :
    ∀ (l : List (Int × Int)) (acc : Int × Int),
      (acc = k ∨ k ∈ l) →
      (∀ x ∈ l, x ≠ k → g x < g k) →
      (acc ≠ k → g acc < g k) →
      l.foldl (fun b x => if g x > g b then x else b) acc = k := by
  intro l
  induction l with
  | nil =>
    intro acc hin _ _
    rcases hin with rfl | h
    · rfl
    · simp at h
  | cons x l ih =>
    intro acc hin hlt hacc
    simp only [List.foldl_cons]
    apply ih (if g x > g acc then x else acc)
    · by_cases hxk : x = k
      · subst hxk
        by_cases hgt : g x > g acc
        · rw [if_pos hgt]
          exact Or.inl rfl
        · rw [if_neg hgt]
          by_cases hacck : acc = x
          · exact Or.inl hacck
          · exact (hgt (hacc hacck)).elim
      · rcases hin with rfl | hin
        · have hgx := hlt x (List.mem_cons_self _ _) hxk
          rw [if_neg (by omega)]
          exact Or.inl rfl
        · rcases List.mem_cons.1 hin with h | hin
          · exact absurd h.symm hxk
          · exact Or.inr hin
    · exact fun y hy hne => hlt y (List.mem_cons_of_mem _ hy) hne
    · intro hne
      by_cases hgt : g x > g acc
      · rw [if_pos hgt] at hne ⊢
        exact hlt x (List.mem_cons_self _ _) hne
      · rw [if_neg hgt] at hne ⊢
        exact hacc hne

theorem pyMax_unique {g : Int × Int → Nat} {l : List (Int × Int)} {k : Int × Int}
    (hk : k ∈ l) (hmax : ∀ x ∈ l, x ≠ k → g x < g k) : pyMax g l = some k := by
  cases l with
  | nil => simp at hk
  | cons k0 ks =>
    simp only [pyMax, Option.some_inj]
    refine pyMax_foldl_unique g k ks k0 ?_
      (fun y hy hne => hmax y (List.mem_cons_of_mem _ hy) hne) ?_
    · rcases List.mem_cons.1 hk with rfl | h
      · exact Or.inl rfl
      · exact Or.inr h
    · intro hne
      exact hmax k0 (List.mem_cons_self _ _) hne

theorem mem_keysFirstAcc (k : Int × Int) :
    ∀ (l seen : List (Int × Int)),
      (k ∈ keysFirstAcc l seen ↔ k ∈ l ∧ k ∉ seen) := by
  intro l
  induction l with
  | nil => simp [keysFirstAcc]
  | cons a l ih =>
    intro seen
    simp only [keysFirstAcc]
    split
    · rename_i ha
      rw [ih]
      simp only [List.mem_cons]
      constructor
      · rintro ⟨hk, hns⟩
        exact ⟨Or.inr hk, hns⟩
      · rintro ⟨hor, hns⟩
        rcases hor with rfl | hk
        · exact absurd ha hns
        · exact ⟨hk, hns⟩
    · rename_i ha
      simp only [List.mem_cons, ih]
      constructor
      · rintro (rfl | ⟨hk, hns⟩)
        · exact ⟨Or.inl rfl, ha⟩
        · push_neg at hns
          exact ⟨Or.inr hk, hns.2⟩
      · rintro ⟨hor, hns⟩
        rcases hor with rfl | hk
        · exact Or.inl rfl
        · by_cases hka : k = a
          · exact Or.inl hka
          · refine Or.inr ⟨hk, ?_⟩
            push_neg
            exact ⟨hka, hns⟩

theorem mem_keysFirst {l : List (Int × Int)} {k : Int × Int} :
    k ∈ keysFirst l ↔ k ∈ l := by
  rw [keysFirst, mem_keysFirstAcc]
  simp

theorem mem_voteKeys {ms : List (Int × Int × Int)} {k : Int × Int} :
    k ∈ voteKeys ms ↔ k ∈ ms.map alignKey :=
  mem_keysFirst

theorem le_foldr_max (f : Int × Int → Nat) :
    ∀ (l : List (Int × Int)) (x : Int × Int), x ∈ l →
      f x ≤ (l.map f).foldr max 0 := by
  intro l
  induction l with
  | nil => simp
  | cons a l ih =>
    intro x hx
    simp only [List.map_cons, List.foldr_cons]
    rcases List.mem_cons.1 hx with rfl | hx
    · exact le_max_left _ _
    · exact le_trans (ih x hx) (le_max_right _ _)

theorem foldr_max_le (f : Int × Int → Nat) :
    ∀ (l : List (Int × Int)) (B : Nat), (∀ x ∈ l, f x ≤ B) →
      (l.map f).foldr max 0 ≤ B := by
  intro l
  induction l with
  | nil => intro B _; simp
  | cons a l ih =>
    intro B h
    simp only [List.map_cons, List.foldr_cons]
    have h1 := h a (List.mem_cons_self _ _)
    have h2 := ih B (fun x hx => h x (List.mem_cons_of_mem _ hx))
    omega

/-- The winning key's count is the maximum vote count. -/
theorem bestKey_count {ms : List (Int × Int × Int)} {bk : Int × Int}
    (h : bestKey ms = some bk) :
    alignmentCounts ms bk = bestAlignCount ms := by
  have hmem : bk ∈ voteKeys ms := pyMax_mem h
  have hle : ∀ x ∈ voteKeys ms,
      alignmentCounts ms x ≤ alignmentCounts ms bk := pyMax_le h
  exact le_antisymm (le_foldr_max _ _ _ hmem) (foldr_max_le _ _ _ hle)

/-- A nonempty probe-result list always yields a winning key. -/
theorem bestKey_isSome {ms : List (Int × Int × Int)} (h : ms ≠ []) :
    ∃ bk, bestKey ms = some bk := by
  cases ms with
  | nil => exact absurd rfl h
  | cons m rest =>
    simp only [bestKey, voteKeys, List.map_cons, keysFirst, pyMax]
    exact ⟨_, rfl⟩

theorem perm_count {l1 l2 : List (Int × Int)} (h : l1.Perm l2) (a : Int × Int) :
    l1.count a = l2.count a := by
  induction h with
  | nil => rfl
  | cons x _ ih => simp [List.count_cons, ih]
  | swap x y l => simp [List.count_cons]; omega
  | trans _ _ ih1 ih2 => exact ih1.trans ih2

/-- Claim C2: `find_matches` returns `none` exactly when the query hash list
is empty, or the probe returns no hits, or the maximum alignment-vote count
is strictly below `MIN_MATCHES`; otherwise it returns a `MatchResult`. -/
theorem c2_none_iff :
    ∀ (qh : List (List Nat × Int × Option Int)) (db : FingerprintDatabase),
      find_matches qh db = none ↔
        qh = [] ∨ query db qh = [] ∨ bestAlignCount (query db qh) < MIN_MATCHES := by
  intro qh db
  by_cases hq : qh = []
  · simp [find_matches, hq]
  · by_cases hm : query db qh = []
    · simp [find_matches, hq, hm]
    · obtain ⟨bk, hbk⟩ := bestKey_isSome hm
      have hcount := bestKey_count hbk
      simp only [find_matches, if_neg hq, if_neg hm, scoreHits, hbk]
      rw [hcount]
      by_cases hth : bestAlignCount (query db qh) < MIN_MATCHES
      · simp [hth]
      · simp [hth, hq, hm]

/-- Counterexample to the `confidence ∈ [0, 1]` part of C1: a store holding
the same posting five times makes one query hash produce five aligned votes,
so `confidence = 5 / 1 = 5 > 1`. -/
theorem c1_confidence_counterexample :
    find_matches [([7], 0, none)]
        ⟨2, [(1, "s")], [([7], 1, 0), ([7], 1, 0), ([7], 1, 0), ([7], 1, 0), ([7], 1, 0)]⟩ =
      some ⟨1, some "s", ((5 : Nat) : ℚ) / ((1 : Nat) : ℚ), 5⟩ ∧
    ¬ (((5 : Nat) : ℚ) / ((1 : Nat) : ℚ) ≤ 1) := by
  constructor
  · rfl
  · push_cast
    norm_num

/-- Amended C1: when the query is non-empty, the probe yields hits, and the
maximum alignment-vote count reaches `MIN_MATCHES`, `find_matches` returns a
`MatchResult` whose `aligned_matches` is that maximum, whose `confidence`
equals it divided by the query length and is nonnegative (it can exceed `1`
when the store holds duplicate postings), whose `song_id` is the winning
vote key's song id, and whose `song_name` is the store's name for that
id. -/
theorem c1_match_result_amended :
    ∀ (qh : List (List Nat × Int × Option Int)) (db : FingerprintDatabase),
      qh ≠ [] → query db qh ≠ [] → MIN_MATCHES ≤ bestAlignCount (query db qh) →
      ∃ (r : MatchResult) (bk : Int × Int), bestKey (query db qh) = some bk ∧
        find_matches qh db = some r ∧
        r.aligned_matches = bestAlignCount (query db qh) ∧
        r.confidence = (bestAlignCount (query db qh) : ℚ) / (qh.length : ℚ) ∧
        0 ≤ r.confidence ∧
        r.song_id = bk.1 ∧ r.song_name = get_song db bk.1 := by
  intro qh db hq hm hth
  obtain ⟨bk, hbk⟩ := bestKey_isSome hm
  have hcount := bestKey_count hbk
  refine ⟨⟨bk.1, get_song db bk.1,
      (bestAlignCount (query db qh) : ℚ) / (qh.length : ℚ),
      bestAlignCount (query db qh)⟩, bk, hbk, ?_, rfl, rfl, ?_, rfl, rfl⟩
  · simp only [find_matches, if_neg hq, if_neg hm, scoreHits, hbk]
    rw [hcount, if_neg (by simp only [MIN_MATCHES] at hth ⊢; omega)]
  · exact div_nonneg (Nat.cast_nonneg _) (Nat.cast_nonneg _)

/-- Witness for amended C1: five distinct query hashes, each hitting one
posting of song 1 at a common alignment offset of 10 frames. -/
theorem c1_match_result_amended_witness :
    ∃ (r : MatchResult) (bk : Int × Int),
      bestKey (query
          ⟨2, [(1, "s")],
            [([1], 1, 10), ([2], 1, 11), ([3], 1, 12), ([4], 1, 13), ([5], 1, 14)]⟩
          [([1], 0, none), ([2], 1, none), ([3], 2, none), ([4], 3, none),
            ([5], 4, none)]) = some bk ∧
      find_matches
          [([1], 0, none), ([2], 1, none), ([3], 2, none), ([4], 3, none),
            ([5], 4, none)]
          ⟨2, [(1, "s")],
            [([1], 1, 10), ([2], 1, 11), ([3], 1, 12), ([4], 1, 13), ([5], 1, 14)]⟩ =
        some r ∧
      r.aligned_matches = bestAlignCount (query
          ⟨2, [(1, "s")],
            [([1], 1, 10), ([2], 1, 11), ([3], 1, 12), ([4], 1, 13), ([5], 1, 14)]⟩
          [([1], 0, none), ([2], 1, none), ([3], 2, none), ([4], 3, none),
            ([5], 4, none)]) ∧
      r.confidence = ((bestAlignCount (query
          ⟨2, [(1, "s")],
            [([1], 1, 10), ([2], 1, 11), ([3], 1, 12), ([4], 1, 13), ([5], 1, 14)]⟩
          [([1], 0, none), ([2], 1, none), ([3], 2, none), ([4], 3, none),
            ([5], 4, none)]) : ℚ) /
        (([([1], 0, none), ([2], 1, none), ([3], 2, none), ([4], 3, none),
            ([5], 4, none)] : List (List Nat × Int × Option Int)).length : ℚ)) ∧
      0 ≤ r.confidence ∧
      r.song_id = bk.1 ∧
      r.song_name = get_song
          ⟨2, [(1, "s")],
            [([1], 1, 10), ([2], 1, 11), ([3], 1, 12), ([4], 1, 13), ([5], 1, 14)]⟩
          bk.1 :=
  c1_match_result_amended
    [([1], 0, none), ([2], 1, none), ([3], 2, none), ([4], 3, none), ([5], 4, none)]
    ⟨2, [(1, "s")],
      [([1], 1, 10), ([2], 1, 11), ([3], 1, 12), ([4], 1, 13), ([5], 1, 14)]⟩
    (by decide) (by decide) (by decide)

/-- Counterexample to C9 as stated: two probe-result lists that are
permutations of each other but whose vote maxima tie between songs 1 and 2
make the matcher return different winners (Python's `max` keeps the first
key in dict insertion order). -/
theorem c9_probe_order_counterexample :
    ([((1 : Int), (0 : Int), (0 : Int)), (1, 0, 0), (1, 0, 0), (1, 0, 0), (1, 0, 0),
        (2, 0, 0), (2, 0, 0), (2, 0, 0), (2, 0, 0), (2, 0, 0)] :
          List (Int × Int × Int)).Perm
      [(2, 0, 0), (2, 0, 0), (2, 0, 0), (2, 0, 0), (2, 0, 0),
        (1, 0, 0), (1, 0, 0), (1, 0, 0), (1, 0, 0), (1, 0, 0)] ∧
    scoreHits ⟨3, [(1, "a"), (2, "b")], []⟩ 10
        [(1, 0, 0), (1, 0, 0), (1, 0, 0), (1, 0, 0), (1, 0, 0),
          (2, 0, 0), (2, 0, 0), (2, 0, 0), (2, 0, 0), (2, 0, 0)] ≠
      scoreHits ⟨3, [(1, "a"), (2, "b")], []⟩ 10
        [(2, 0, 0), (2, 0, 0), (2, 0, 0), (2, 0, 0), (2, 0, 0),
          (1, 0, 0), (1, 0, 0), (1, 0, 0), (1, 0, 0), (1, 0, 0)] := by
  constructor
  · decide
  · have h1 : scoreHits ⟨3, [(1, "a"), (2, "b")], []⟩ 10
        [(1, 0, 0), (1, 0, 0), (1, 0, 0), (1, 0, 0), (1, 0, 0),
          (2, 0, 0), (2, 0, 0), (2, 0, 0), (2, 0, 0), (2, 0, 0)] =
        some ⟨1, some "a", ((5 : Nat) : ℚ) / ((10 : Nat) : ℚ), 5⟩ := rfl
    have h2 : scoreHits ⟨3, [(1, "a"), (2, "b")], []⟩ 10
        [(2, 0, 0), (2, 0, 0), (2, 0, 0), (2, 0, 0), (2, 0, 0),
          (1, 0, 0), (1, 0, 0), (1, 0, 0), (1, 0, 0), (1, 0, 0)] =
        some ⟨2, some "b", ((5 : Nat) : ℚ) / ((10 : Nat) : ℚ), 5⟩ := rfl
    rw [h1, h2]
    intro h
    have := (Option.some_inj.1 h)
    have hid : (1 : Int) = 2 := congrArg MatchResult.song_id this
    norm_num at hid

/-- Amended C9: the matcher's scoring is invariant under permutation of the
probe results whenever a single vote key uniquely attains the maximum count;
when distinct keys tie, the winner depends on the order of the probe
results. -/
theorem c9_unique_max_amended :
    ∀ (db : FingerprintDatabase) (qlen : Nat) (m1 m2 : List (Int × Int × Int)),
      m1.Perm m2 →
      (∃ k, k ∈ m1.map alignKey ∧ ∀ x ∈ m1.map alignKey, x ≠ k →
        (m1.map alignKey).count x < (m1.map alignKey).count k) →
      scoreHits db qlen m1 = scoreHits db qlen m2 := by
  intro db qlen m1 m2 hperm hex
  obtain ⟨k, hk, hmax⟩ := hex
  have hkeysperm : (m1.map alignKey).Perm (m2.map alignKey) := hperm.map alignKey
  have hb1 : bestKey m1 = some k := by
    apply pyMax_unique (mem_voteKeys.2 hk)
    intro x hx hne
    exact hmax x (mem_voteKeys.1 hx) hne
  have hb2 : bestKey m2 = some k := by
    apply pyMax_unique (mem_voteKeys.2 (hkeysperm.mem_iff.1 hk))
    intro x hx hne
    have hx1 : x ∈ m1.map alignKey := hkeysperm.mem_iff.2 (mem_voteKeys.1 hx)
    show (m2.map alignKey).count x < (m2.map alignKey).count k
    rw [← perm_count hkeysperm x, ← perm_count hkeysperm k]
    exact hmax x hx1 hne
  have hck : alignmentCounts m1 k = alignmentCounts m2 k := perm_count hkeysperm k
  simp only [scoreHits, hb1, hb2]
  rw [hck]

/-- Witness for amended C9: a rotation of a probe-result list with a unique
maximum key yields the same score. -/
theorem c9_unique_max_amended_witness :
    scoreHits ⟨1, [], []⟩ 6
        [((1 : Int), (0 : Int), (0 : Int)), (1, 0, 0), (1, 0, 0), (1, 0, 0),
          (1, 0, 0), (2, 0, 0)] =
      scoreHits ⟨1, [], []⟩ 6
        [(2, 0, 0), (1, 0, 0), (1, 0, 0), (1, 0, 0), (1, 0, 0), (1, 0, 0)] :=
  c9_unique_max_amended ⟨1, [], []⟩ 6
    [(1, 0, 0), (1, 0, 0), (1, 0, 0), (1, 0, 0), (1, 0, 0), (2, 0, 0)]
    [(2, 0, 0), (1, 0, 0), (1, 0, 0), (1, 0, 0), (1, 0, 0), (1, 0, 0)]
    (by decide) ⟨(1, 0), by decide, by decide⟩

/-! ### peaks.py

The spectrogram is a dense 2-D array of magnitudes indexed by
`(frequency_bin, time_frame)`, modelled as a list of rows (`List (List ℚ)`),
entry `S[f][t]`.  NumPy float arithmetic is modelled exactly: magnitudes are
rationals, and `np.std`'s square root makes the adaptive threshold a real
number.  `scipy.ndimage.maximum_filter(S, size=20)` uses window offsets
`-10 .. 9` on each axis with the default `reflect` boundary mode. -/

/-- Constant `NEIGHBORHOOD_SIZE = 20` (peaks.py). -/
def NEIGHBORHOOD_SIZE : Nat := 20

/-- Number of time frames: the length of a row (0 for an empty array). -/
def rowLen (S : List (List ℚ)) : Nat :=
  match S with
  | [] => 0
  | r :: _ => r.length

/-- Entry `S[f, t]`, defaulting to 0 outside the stored rectangle. -/
def entry (S : List (List ℚ)) (f t : Nat) : ℚ := (S.getD f []).getD t 0

/-- Index folding for scipy's `reflect` boundary mode
(`d c b a | a b c d | d c b a`): reflection with edge duplication, extended
periodically with period `2n`. -/
def reflectIdx (n : Nat) (i : Int) : Nat :=
  if n = 0 then 0
  else
    let j := (i % (2 * (n : Int))).toNat
    if j < n then j else 2 * n - 1 - j

/-- Window offsets of `maximum_filter` with `size = 20` and origin 0:
`-(20 / 2) .. 20 - 20 / 2 - 1`, i.e. `-10 .. 9`. -/
def offs : List Int := (List.range NEIGHBORHOOD_SIZE).map (fun k => (k : Int) - 10)

/-- The 20 × 20 window of values seen by the maximum filter at `(f, t)`. -/
def windowVals (S : List (List ℚ)) (f t : Nat) : List ℚ :=
  offs.flatMap (fun df => offs.map (fun dt =>
    entry S (reflectIdx S.length ((f : Int) + df)) (reflectIdx (rowLen S) ((t : Int) + dt))))

/-- Value of `maximum_filter(S, size=20)` at `(f, t)`.  The base of the fold
is the cell's own value, which for an in-range cell is redundant because the
window contains offset 0. -/
def nbhdMax (S : List (List ℚ)) (f t : Nat) : ℚ :=
  (windowVals S f t).foldr max (entry S f t)

/-- Total number of array cells `F · T` (the denominator of `np.mean`). -/
def numEntries (S : List (List ℚ)) : Nat := S.length * rowLen S

/-- Sum of all magnitudes. -/
def sumEntries (S : List (List ℚ)) : ℚ := (S.map (fun r => r.sum)).sum

/-- Sum of all squared magnitudes. -/
def sumSqEntries (S : List (List ℚ)) : ℚ :=
  (S.map (fun r => (r.map (fun x => x * x)).sum)).sum

/-- Exact value of `np.mean(spectrogram)`. -/
def meanS (S : List (List ℚ)) : ℚ := sumEntries S / (numEntries S : ℚ)

/-- Exact value of `np.var(spectrogram)` (population variance,
`E[x²] − (E[x])²`), whose square root is `np.std`. -/
def varS (S : List (List ℚ)) : ℚ :=
  sumSqEntries S / (numEntries S : ℚ) - meanS S * meanS S

/-- The adaptive threshold `np.mean(S) + 2 * np.std(S)` of peaks.py. -/
noncomputable def tau (S : List (List ℚ)) : ℝ :=
  ((meanS S : ℚ) : ℝ) + 2 * Real.sqrt ((varS S : ℚ) : ℝ)

open Classical in
/-- Embedding of `find_peaks(spectrogram, amp_min)` (peaks.py): a cell is a
peak iff it equals the maximum-filter value and strictly exceeds the
threshold; coordinates are emitted as `(time_idx, freq_idx)` in NumPy's
row-major (`freq` outer, `time` inner) order. -/
noncomputable def find_peaks (S : List (List ℚ)) (amp_min : Option ℝ) :
    List (Nat × Nat) :=
  let τ : ℝ := amp_min.getD (tau S)
  (List.range S.length).flatMap (fun f =>
    (List.range (rowLen S)).filterMap (fun t =>
      if entry S f t = nbhdMax S f t ∧ ((entry S f t : ℚ) : ℝ) > τ then some (t, f)
      else none))

theorem getD_mem {α : Type} (l : List α) (n : Nat) (d : α) (h : n < l.length) :
    l.getD n d ∈ l := by
  rw [List.getD_eq_getElem?_getD, List.getElem?_eq_getElem h]
  exact List.getElem_mem _

/-- All-zero spectrograms have zero entries everywhere. -/
theorem entry_eq_zero_of_all_zero {S : List (List ℚ)}
    (hz : ∀ row ∈ S, ∀ x ∈ row, x = 0) (f t : Nat) : entry S f t = 0 := by
  rw [entry]
  by_cases hf : f < S.length
  · have hrow := getD_mem S f [] hf
    by_cases ht : t < (S.getD f []).length
    · exact hz _ hrow _ (getD_mem (S.getD f []) t 0 ht)
    · apply List.getD_eq_default
      omega
  · have hrow0 : S.getD f [] = [] := by
      apply List.getD_eq_default
      omega
    rw [hrow0]
    rfl

/-- All-zero spectrograms have threshold `tau = 0`. -/
theorem tau_eq_zero_of_all_zero {S : List (List ℚ)}
    (hz : ∀ row ∈ S, ∀ x ∈ row, x = 0) : tau S = 0 := by
  have hsum : sumEntries S = 0 := by
    rw [sumEntries]
    apply List.sum_eq_zero
    intro x hx
    obtain ⟨row, hrow, rfl⟩ := List.mem_map.1 hx
    exact List.sum_eq_zero (hz row hrow)
  have hsumsq : sumSqEntries S = 0 := by
    rw [sumSqEntries]
    apply List.sum_eq_zero
    intro x hx
    obtain ⟨row, hrow, rfl⟩ := List.mem_map.1 hx
    apply List.sum_eq_zero
    intro y hy
    obtain ⟨z, hz2, rfl⟩ := List.mem_map.1 hy
    rw [hz row hrow z hz2, mul_zero]
  have hmean : meanS S = 0 := by rw [meanS, hsum, zero_div]
  have hvar : varS S = 0 := by rw [varS, hsumsq, hmean, zero_div, mul_zero, sub_zero]
  rw [tau, hmean, hvar]
  push_cast
  rw [Real.sqrt_zero]
  ring

/-- Claim C6: every pair `(t, f)` returned by `find_peaks` with no threshold
override satisfies `S[f, t] = maximum_filter(S, 20)[f, t]` and
`S[f, t] > mean(S) + 2 · std(S)` strictly; consequently an all-zero
spectrogram yields no peaks. -/
theorem c6_peaks_threshold :
    ∀ S : List (List ℚ),
      (∀ t f : Nat, (t, f) ∈ find_peaks S none →
        entry S f t = nbhdMax S f t ∧ ((entry S f t : ℚ) : ℝ) > tau S) ∧
      ((∀ row ∈ S, ∀ x ∈ row, x = 0) → find_peaks S none = []) := by
  intro S
  constructor
  · intro t f h
    simp only [find_peaks, Option.getD_none] at h
    rw [List.mem_flatMap] at h
    obtain ⟨f2, _, h⟩ := h
    rw [List.mem_filterMap] at h
    obtain ⟨t2, _, heq⟩ := h
    split at heq
    · rename_i hcond
      have hpair : (t2, f2) = (t, f) := Option.some_inj.1 heq
      have ht2 : t2 = t := congrArg Prod.fst hpair
      have hf2 : f2 = f := congrArg Prod.snd hpair
      subst ht2
      subst hf2
      exact hcond
    · exact absurd heq (by simp)
  · intro hz
    have htau := tau_eq_zero_of_all_zero hz
    simp only [find_peaks, Option.getD_none]
    rw [List.flatMap_eq_nil_iff]
    intro f _
    rw [List.filterMap_eq_nil_iff]
    intro t _
    rw [if_neg]
    intro hcond
    rw [entry_eq_zero_of_all_zero hz f t, htau] at hcond
    exact absurd hcond.2 (by norm_num)

/-- Bounded entries: if every magnitude is at most `B ≥ 0`, every `entry`
(including out-of-range defaults) is at most `B`. -/
theorem entry_le {S : List (List ℚ)} {B : ℚ} (hB : 0 ≤ B)
    (h : ∀ row ∈ S, ∀ x ∈ row, x ≤ B) (f t : Nat) : entry S f t ≤ B := by
  rw [entry]
  by_cases hf : f < S.length
  · have hrow := getD_mem S f [] hf
    by_cases ht : t < (S.getD f []).length
    · exact h _ hrow _ (getD_mem (S.getD f []) t 0 ht)
    · rw [List.getD_eq_default _ _ (by omega)]
      exact hB
  · have hrow0 : S.getD f [] = [] := by
      apply List.getD_eq_default
      omega
    rw [hrow0]
    exact hB

theorem foldr_max_eq_base {l : List ℚ} {b : ℚ} (h : ∀ x ∈ l, x ≤ b) :
    l.foldr max b = b := by
  induction l with
  | nil => rfl
  | cons x l ih =>
    simp only [List.foldr_cons]
    rw [ih (fun y hy => h y (List.mem_cons_of_mem _ hy))]
    exact max_eq_right (h x (List.mem_cons_self _ _))

set_option maxRecDepth 8192 in
/-- Witness for C6: in the one-row spectrogram
`[[0,0,0,0,0,0,0,0,0,1]]` the threshold is `1/10 + 2·(3/10) = 7/10`, the
spike at `(t, f) = (9, 0)` is a reported peak satisfying both conditions,
and the all-zero spectrogram `[[0, 0], [0, 0]]` yields no peaks. -/
theorem c6_peaks_threshold_witness :
    (entry [[0, 0, 0, 0, 0, 0, 0, 0, 0, 1]] 0 9 =
        nbhdMax [[0, 0, 0, 0, 0, 0, 0, 0, 0, 1]] 0 9 ∧
      ((entry [[0, 0, 0, 0, 0, 0, 0, 0, 0, 1]] 0 9 : ℚ) : ℝ) >
        tau [[0, 0, 0, 0, 0, 0, 0, 0, 0, 1]]) ∧
    find_peaks [[0, 0], [0, 0]] none = [] := by
  have hvar : varS [[0, 0, 0, 0, 0, 0, 0, 0, 0, 1]] = 9 / 100 := by
    norm_num [varS, sumSqEntries, meanS, sumEntries, numEntries, rowLen]
  have hmean : meanS [[0, 0, 0, 0, 0, 0, 0, 0, 0, 1]] = 1 / 10 := by
    norm_num [meanS, sumEntries, numEntries, rowLen]
  have hsq : Real.sqrt (((9 / 100 : ℚ) : ℝ)) = 3 / 10 := by
    rw [show (((9 / 100 : ℚ)) : ℝ) = (3 / 10) ^ 2 by push_cast; norm_num]
    exact Real.sqrt_sq (by norm_num)
  have htau : tau [[0, 0, 0, 0, 0, 0, 0, 0, 0, 1]] = 7 / 10 := by
    rw [tau, hmean, hvar, hsq]
    push_cast
    norm_num
  have hentry : entry [[0, 0, 0, 0, 0, 0, 0, 0, 0, 1]] 0 9 = 1 := by decide
  have hbound : ∀ row ∈ [[(0 : ℚ), 0, 0, 0, 0, 0, 0, 0, 0, 1]], ∀ x ∈ row, x ≤ 1 := by
    decide
  have hmax : nbhdMax [[0, 0, 0, 0, 0, 0, 0, 0, 0, 1]] 0 9 =
      entry [[0, 0, 0, 0, 0, 0, 0, 0, 0, 1]] 0 9 := by
    rw [nbhdMax]
    apply foldr_max_eq_base
    intro x hx
    simp only [windowVals, List.mem_flatMap, List.mem_map] at hx
    obtain ⟨df, _, dt, _, rfl⟩ := hx
    rw [hentry]
    exact entry_le (by norm_num) hbound _ _
  refine ⟨(c6_peaks_threshold [[0, 0, 0, 0, 0, 0, 0, 0, 0, 1]]).1 9 0 ?_,
    (c6_peaks_threshold [[0, 0], [0, 0]]).2 (by norm_num)⟩
  simp only [find_peaks, Option.getD_none]
  rw [List.mem_flatMap]
  refine ⟨0, by simp, ?_⟩
  rw [List.mem_filterMap]
  refine ⟨9, by simp [rowLen], ?_⟩
  rw [if_pos]
  constructor
  · exact hmax.symm
  · rw [hentry, htau]
    norm_num

end Shazam
